import Mathlib

/-!
Verification of the π-calculator (src/calculate_pi.py) against its design
specification.

Modelling conventions (shallow embedding):

* Python floats are modelled as exact rationals (ℚ).  Estimator arithmetic
  (`4.0 * inside_circle / iterations`, Buffon's formula) is exact in the
  model; no claim under consideration hinges on binary rounding of these
  single divisions.  The one explicitly representation-sensitive step,
  `float(pi_over_4 * 4)` in calculate_pi_leibniz, is modelled by
  `toFloat64`, the round-to-nearest-even conversion to a binary64 value
  (overflow/subnormal range is irrelevant for values near π).
* Python `Decimal` values under `getcontext().prec = 50` are modelled as
  rationals, with every arithmetic operation followed by `decRound 50`:
  the exact result rounded to 50 significant decimal digits, ties to even
  (the default `ROUND_HALF_EVEN` of the decimal module).
* `random.random()` is modelled as an ambient stream `s : ℕ → ℚ` of draws,
  consumed in program order: the k-th call to `random.random()` during a
  run returns `s k`.
* `math.sin` and `math.pi` are opaque to every claim under study, so they
  enter the model as parameters `sinA : ℚ → ℚ` and `piA : ℚ`.
* A Python function that can raise (`ZeroDivisionError`) is embedded with
  an `Option` result; `none` is the raised exception.
* Python strings are modelled as `List Char`.
* In calculate_pi_monte_carlo the source computes
  `distance = (x*x + y*y) ** 0.5` and tests `distance <= 1.0`.  Square
  root is strictly monotone and `1 ** 0.5 = 1` exactly (this also holds
  for the correctly rounded binary64 square root on exactly representable
  boundaries), so the test is embedded as `x*x + y*y ≤ 1`; the bridging
  equivalence with the square-root form is proved inside the theorem for
  claim C2.
-/

namespace PiCalc

set_option maxRecDepth 8000

attribute [local semireducible] Rat.add Rat.mul Rat.sub Rat.inv

/-- Floor of a rational as an integer (den is always positive). -/
def ratFloor (x : ℚ) : ℤ := Int.fdiv x.num x.den

/-- Round a rational to the nearest integer, ties to even
(`ROUND_HALF_EVEN`, the default rounding of Python's decimal module, and
the rounding used by binary64 arithmetic and by `format(v, '.Nf')`). -/
def roundHalfEven (x : ℚ) : ℤ :=
  let n := ratFloor x
  let f := x - (n : ℚ)
  if f < 1/2 then n
  else if 1/2 < f then n + 1
  else if n % 2 = 0 then n else n + 1

/-- Fuel-driven base-`b` integer logarithm; with `fuel = n` it computes
the number of times `n` can be divided by `b` before dropping below `b`.
Written with explicit fuel so that the kernel can evaluate it. -/
def natLogF (b : ℕ) : ℕ → ℕ → ℕ
  | 0, _ => 0
  | fuel+1, n => if 2 ≤ b ∧ b ≤ n then natLogF b fuel (n / b) + 1 else 0

/-- Floor of the base-`b` logarithm of a positive rational: the unique
`e` with `b ^ e ≤ q < b ^ (e+1)` (junk value on `q ≤ 0`). -/
def floorLogQ (b : ℕ) (q : ℚ) : ℤ :=
  let p := q.num.toNat
  let d : ℤ := (natLogF b p p : ℤ) - (natLogF b q.den q.den : ℤ)
  if (b : ℚ) ^ d ≤ q then d else d - 1

/-- Round a rational to `prec` significant decimal digits, ties to even:
the value produced by a Python `Decimal` operation whose exact result is
`x`, under a context with precision `prec`. -/
def decRound (prec : ℕ) (x : ℚ) : ℚ :=
  if x = 0 then 0
  else
    let s : ℚ := if x < 0 then -1 else 1
    let e := floorLogQ 10 |x|
    let k : ℤ := (prec : ℤ) - 1 - e
    s * ((roundHalfEven (|x| * (10 : ℚ) ^ k) : ℤ) : ℚ) * (10 : ℚ) ^ (-k)

/-- Decimal addition under a context with precision `p`. -/
def decAdd (p : ℕ) (x y : ℚ) : ℚ := decRound p (x + y)

/-- Decimal division under a context with precision `p`. -/
def decDiv (p : ℕ) (x y : ℚ) : ℚ := decRound p (x / y)

/-- Decimal multiplication under a context with precision `p`. -/
def decMul (p : ℕ) (x y : ℚ) : ℚ := decRound p (x * y)

/-- Conversion of a rational to the nearest binary64 value (round to
nearest, ties to even, 53-bit significand), as performed by Python's
`float(...)` on a `Decimal`.  Overflow and subnormal underflow are out of
range for every value this program converts. -/
def toFloat64 (x : ℚ) : ℚ :=
  if x = 0 then 0
  else
    let s : ℚ := if x < 0 then -1 else 1
    let e := floorLogQ 2 |x|
    let k : ℤ := 52 - e
    s * ((roundHalfEven (|x| * (2 : ℚ) ^ k) : ℤ) : ℚ) * (2 : ℚ) ^ (-k)

/-! ### Monte Carlo estimator (src/calculate_pi.py lines 16-41) -/

/-- Loop body accumulator of calculate_pi_monte_carlo: the number of
sampled points that landed inside the quarter circle.  Iteration `i`
consumes draws `s (2*i)` (as `x`) and `s (2*i+1)` (as `y`); the source
test `(x*x + y*y) ** 0.5 <= 1.0` is embedded as `x*x + y*y ≤ 1` (see the
header note). -/
def mcHits (s : ℕ → ℚ) (iterations : ℕ) : ℕ :=
  (List.range iterations).foldl
    (fun inside_circle i =>
      let x := s (2*i)
      let y := s (2*i+1)
      if x*x + y*y ≤ 1 then inside_circle + 1 else inside_circle)
    0

/-- Embedding of calculate_pi_monte_carlo.  `none` models the
`ZeroDivisionError` raised by `4.0 * inside_circle / iterations` when
`iterations = 0`. -/
def calculate_pi_monte_carlo (s : ℕ → ℚ) (iterations : ℕ) : Option ℚ :=
  let inside_circle := mcHits s iterations
  if iterations = 0 then none
  else some (4 * (inside_circle : ℚ) / (iterations : ℚ))

/-! ### Leibniz series estimator (src/calculate_pi.py lines 44-65) -/

/-- Loop of calculate_pi_leibniz: starting from `Decimal(0)`, add for
each `n < terms` the term `Decimal((-1)**n) / Decimal(2*n+1)`, every
operation rounded by the precision-50 context set at the top of the
function. -/
def leibnizLoop (terms : ℕ) : ℚ :=
  (List.range terms).foldl
    (fun pi_over_4 n => decAdd 50 pi_over_4 (decDiv 50 ((-1 : ℚ) ^ n) ((2 * n + 1 : ℕ) : ℚ)))
    0

/-- Embedding of calculate_pi_leibniz: `getcontext().prec = 50`, the
accumulation loop, then `float(pi_over_4 * 4)`. -/
def calculate_pi_leibniz (terms : ℕ) : ℚ :=
  toFloat64 (decMul 50 (leibnizLoop terms) 4)

/-- Embedding of calculate_pi_leibniz with the process-wide decimal
context made explicit as state: `precIn` is the precision of the global
context when the call starts; the second component is the precision left
in the global context when the call returns.  The first statement of the
source, `getcontext().prec = 50`, overwrites the inherited precision, so
every decimal operation of the run uses precision 50. -/
def calculate_pi_leibniz_ctx (terms : ℕ) (precIn : ℕ) : ℚ × ℕ :=
  let prec := 50
  let pi_over_4 := (List.range terms).foldl
    (fun acc n => decAdd prec acc (decDiv prec ((-1 : ℚ) ^ n) ((2 * n + 1 : ℕ) : ℚ)))
    0
  (toFloat64 (decMul prec pi_over_4 4), prec)

/-! ### Buffon's needle estimator (src/calculate_pi.py lines 68-100) -/

/-- Per-drop crossing test of calculate_pi_buffon_needle: with the
needle-centre offset `y` and orientation `theta` already sampled, the
source computes `y_end = y + (needle_length / 2) * math.sin(theta)` and
counts a crossing when `y_end >= line_distance / 2 or y_end <= 0`. -/
def needleCrosses (sinA : ℚ → ℚ) (needle_length line_distance y theta : ℚ) : Bool :=
  let y_end := y + (needle_length / 2) * sinA theta
  decide (line_distance / 2 ≤ y_end) || decide (y_end ≤ 0)

/-- Loop of calculate_pi_buffon_needle: the number of dropped needles
that crossed a line.  Drop `i` consumes `s (2*i)` (scaled to the centre
offset `y = random.random() * (line_distance / 2)`) and then `s (2*i+1)`
(scaled to the orientation `theta = random.random() * math.pi`). -/
def buffonCrosses (s : ℕ → ℚ) (sinA : ℚ → ℚ) (piA : ℚ)
    (drops : ℕ) (needle_length line_distance : ℚ) : ℕ :=
  (List.range drops).foldl
    (fun crosses i =>
      let y := s (2*i) * (line_distance / 2)
      let theta := s (2*i+1) * piA
      if needleCrosses sinA needle_length line_distance y theta then crosses + 1 else crosses)
    0

/-- Embedding of calculate_pi_buffon_needle.  When `crosses > 0` the
source returns `(2 * needle_length * drops) / (line_distance * crosses)`;
`none` models the `ZeroDivisionError` of that division when
`line_distance = 0`.  When `crosses = 0` the source returns `0`. -/
def calculate_pi_buffon_needle (s : ℕ → ℚ) (sinA : ℚ → ℚ) (piA : ℚ)
    (drops : ℕ) (needle_length line_distance : ℚ) : Option ℚ :=
  let crosses := buffonCrosses s sinA piA drops needle_length line_distance
  if 0 < crosses then
    if line_distance * (crosses : ℚ) = 0 then none
    else some ((2 * needle_length * (drops : ℚ)) / (line_distance * (crosses : ℚ)))
  else some 0

/-! ### Divergence formatter (src/calculate_pi.py lines 103-132) -/

/-- Digits of `n` in base 10, least significant first, driven by fuel
(`fuel = n` always suffices). -/
def natDigitsRevF : ℕ → ℕ → List Char
  | 0, _ => []
  | fuel+1, n => if n = 0 then [] else Nat.digitChar (n % 10) :: natDigitsRevF fuel (n / 10)

/-- Decimal rendering of a natural number, as Python renders the integer
part of a fixed-point float. -/
def natToChars (n : ℕ) : List Char :=
  if n = 0 then ['0'] else (natDigitsRevF n n).reverse

/-- Exactly `places` base-10 digits of `n`, most significant first,
zero-padded on the left: the fractional-digit block of a fixed-point
rendering. -/
def natPadDigits : ℕ → ℕ → List Char
  | 0, _ => []
  | p+1, n => natPadDigits p (n / 10) ++ [Nat.digitChar (n % 10)]

/-- Fixed-point rendering of a value with exactly `places` fractional
digits, rounding half to even: the model of the Python format
`f"{value:.20f}"` (and of `format(value, '.Nf')` generally) applied to
the model value. -/
def formatFixed (q : ℚ) (places : ℕ) : List Char :=
  (if q < 0 then ['-'] else []) ++
  natToChars ((roundHalfEven (|q| * (10 : ℚ) ^ places)).toNat / 10 ^ places) ++
  (if places = 0 then []
   else '.' :: natPadDigits places ((roundHalfEven (|q| * (10 : ℚ) ^ places)).toNat % 10 ^ places))

/-- The start-of-divergence delimiter written by the source:
`'\033[91m'` (ANSI red). -/
def redMark : List Char := ['\x1b', '[', '9', '1', 'm']

/-- The end-of-divergence delimiter written by the source: `'\033[0m'`
(ANSI reset). -/
def resetMark : List Char := ['\x1b', '[', '0', 'm']

/-- One iteration of the loop of format_pi_with_color over a zipped pair
`(v_char, r_char)`, carrying the state `(result, diverged)`:

* while not diverged and the characters match, copy the character;
* at the first mismatch, emit the red delimiter, set `diverged`, and copy
  the character;
* once diverged, copy every character. -/
def colorStep (st : List Char × Bool) (vr : Char × Char) : List Char × Bool :=
  if st.2 = false ∧ vr.1 = vr.2 then (st.1 ++ [vr.1], st.2)
  else if st.2 = false then (st.1 ++ redMark ++ [vr.1], true)
  else (st.1 ++ [vr.1], st.2)

/-- Embedding of format_pi_with_color generalised over the number of
fractional digits: render both values to fixed-point strings with
`places` fractional digits, scan the zipped characters with `colorStep`,
and close with the reset delimiter when a divergence was marked.  The
source instantiates `places = 20`. -/
def format_pi_with_color_at (places : ℕ) (value reference : ℚ) : List Char :=
  let value_str := formatFixed value places
  let reference_str := formatFixed reference places
  let st := (value_str.zip reference_str).foldl colorStep ([], false)
  if st.2 then st.1 ++ resetMark else st.1

/-- Embedding of format_pi_with_color exactly as in the source, which
renders with `f"{...:.20f}"`. -/
def format_pi_with_color (value reference : ℚ) : List Char :=
  format_pi_with_color_at 20 value reference

/-- Removal of the two ANSI delimiters the formatter can emit, leaving
the printable content of a formatted string. -/
def stripAnsi : List Char → List Char
  | '\x1b' :: '[' :: '9' :: '1' :: 'm' :: rest => stripAnsi rest
  | '\x1b' :: '[' :: '0' :: 'm' :: rest => stripAnsi rest
  | c :: cs => c :: stripAnsi cs
  | [] => []

/-! ### Specification-side definitions, written from the claims' words -/

/-- Hit count as the specification states it: the number of iteration
indices below `iterations` whose drawn point `(x, y)` satisfies
`x² + y² ≤ 1` (equivalently, Euclidean distance from the origin at most
1). -/
def mcHitsSpec (s : ℕ → ℚ) (iterations : ℕ) : ℕ :=
  ((Finset.range iterations).filter
    (fun i => s (2*i) * s (2*i) + s (2*i+1) * s (2*i+1) ≤ 1)).card

/-- Partial Leibniz sum as the specification states it: the sum over
`n = 0 .. terms-1` of the signed term `(-1)^n / (2n+1)`, accumulated in
50-significant-digit decimal arithmetic. -/
def leibnizDecSum : ℕ → ℚ
  | 0 => 0
  | n+1 => decAdd 50 (leibnizDecSum n) (decDiv 50 ((-1 : ℚ) ^ n) ((2 * n + 1 : ℕ) : ℚ))

/-- Crossing count as the (amended) specification states it: the number
of drop indices whose projected endpoint offset
`y_end = y + (needleLength/2)·sin(θ)` satisfies `y_end ≤ 0` or
`y_end ≥ lineDistance/2`. -/
def buffonCrossesSpec (s : ℕ → ℚ) (sinA : ℚ → ℚ) (piA : ℚ)
    (drops : ℕ) (needle_length line_distance : ℚ) : ℕ :=
  ((Finset.range drops).filter
    (fun i =>
      let y := s (2*i) * (line_distance / 2)
      let y_end := y + (needle_length / 2) * sinA (s (2*i+1) * piA)
      y_end ≤ 0 ∨ line_distance / 2 ≤ y_end)).card

/-- Stream that always draws 0; used to instantiate witnesses. -/
def zeroStream : ℕ → ℚ := fun _ => 0

/-- Sine model that is constantly 0; it agrees with real sine at
`θ = 0`, the orientation drawn by `zeroStream`. -/
def zeroSin : ℚ → ℚ := fun _ => 0

/-! ### Helper lemmas -/

theorem mcHits_succ (s : ℕ → ℚ) (n : ℕ) :
    mcHits s (n+1) =
      if s (2*n) * s (2*n) + s (2*n+1) * s (2*n+1) ≤ 1 then mcHits s n + 1 else mcHits s n := by
  unfold mcHits
  rw [List.range_succ, List.foldl_append]
  simp

theorem mcHits_eq_spec (s : ℕ → ℚ) : ∀ n, mcHits s n = mcHitsSpec s n := by
  intro n
  induction n with
  | zero => simp [mcHits, mcHitsSpec]
  | succ n ih =>
    have hmem : n ∉ (Finset.range n).filter
        (fun i => s (2*i) * s (2*i) + s (2*i+1) * s (2*i+1) ≤ 1) := by
      intro hc
      exact Finset.not_mem_range_self (Finset.mem_of_mem_filter _ hc)
    rw [mcHits_succ, ih]
    unfold mcHitsSpec
    rw [Finset.range_succ, Finset.filter_insert]
    by_cases h : s (2*n) * s (2*n) + s (2*n+1) * s (2*n+1) ≤ 1
    · rw [if_pos h, if_pos h, Finset.card_insert_of_not_mem hmem]
    · rw [if_neg h, if_neg h]

theorem mcHits_le (s : ℕ → ℚ) (n : ℕ) : mcHits s n ≤ n := by
  rw [mcHits_eq_spec]
  calc mcHitsSpec s n ≤ (Finset.range n).card := Finset.card_filter_le _ _
    _ = n := Finset.card_range n

theorem mcHits_congr (s₁ s₂ : ℕ → ℚ) (n : ℕ) (h : ∀ j, j < 2*n → s₁ j = s₂ j) :
    mcHits s₁ n = mcHits s₂ n := by
  induction n with
  | zero => rfl
  | succ n ih =>
    rw [mcHits_succ, mcHits_succ, ih (fun j hj => h j (by omega)),
      h (2*n) (by omega), h (2*n+1) (by omega)]

theorem needleCrosses_iff (sinA : ℚ → ℚ) (L d y theta : ℚ) :
    needleCrosses sinA L d y theta = true ↔
      (y + (L/2) * sinA theta ≤ 0 ∨ d/2 ≤ y + (L/2) * sinA theta) := by
  unfold needleCrosses
  simp [or_comm]

theorem buffonCrosses_succ (s : ℕ → ℚ) (sinA : ℚ → ℚ) (piA : ℚ) (n : ℕ) (L d : ℚ) :
    buffonCrosses s sinA piA (n+1) L d =
      if needleCrosses sinA L d (s (2*n) * (d / 2)) (s (2*n+1) * piA)
      then buffonCrosses s sinA piA n L d + 1 else buffonCrosses s sinA piA n L d := by
  unfold buffonCrosses
  rw [List.range_succ, List.foldl_append]
  simp

theorem buffonCrosses_eq_spec (s : ℕ → ℚ) (sinA : ℚ → ℚ) (piA : ℚ) (L d : ℚ) :
    ∀ n, buffonCrosses s sinA piA n L d = buffonCrossesSpec s sinA piA n L d := by
  intro n
  induction n with
  | zero => simp [buffonCrosses, buffonCrossesSpec]
  | succ n ih =>
    have hmem : n ∉ (Finset.range n).filter
        (fun i =>
          let y := s (2*i) * (d / 2)
          let y_end := y + (L / 2) * sinA (s (2*i+1) * piA)
          y_end ≤ 0 ∨ d / 2 ≤ y_end) := by
      intro hc
      exact Finset.not_mem_range_self (Finset.mem_of_mem_filter _ hc)
    rw [buffonCrosses_succ, ih]
    unfold buffonCrossesSpec
    rw [Finset.range_succ, Finset.filter_insert]
    by_cases h : s (2*n) * (d / 2) + (L / 2) * sinA (s (2*n+1) * piA) ≤ 0 ∨
        d / 2 ≤ s (2*n) * (d / 2) + (L / 2) * sinA (s (2*n+1) * piA)
    · rw [if_pos ((needleCrosses_iff _ _ _ _ _).mpr h), if_pos h,
        Finset.card_insert_of_not_mem hmem]
    · rw [if_neg (fun hb => h ((needleCrosses_iff _ _ _ _ _).mp hb)), if_neg h]

theorem buffonCrosses_congr (s₁ s₂ : ℕ → ℚ) (sinA : ℚ → ℚ) (piA : ℚ) (n : ℕ) (L d : ℚ)
    (h : ∀ j, j < 2*n → s₁ j = s₂ j) :
    buffonCrosses s₁ sinA piA n L d = buffonCrosses s₂ sinA piA n L d := by
  induction n with
  | zero => rfl
  | succ n ih =>
    rw [buffonCrosses_succ, buffonCrosses_succ, ih (fun j hj => h j (by omega)),
      h (2*n) (by omega), h (2*n+1) (by omega)]

theorem leibnizLoop_succ (n : ℕ) :
    leibnizLoop (n+1) =
      decAdd 50 (leibnizLoop n) (decDiv 50 ((-1 : ℚ) ^ n) ((2 * n + 1 : ℕ) : ℚ)) := by
  unfold leibnizLoop
  rw [List.range_succ, List.foldl_append]
  simp

theorem leibnizLoop_eq_decSum : ∀ terms, leibnizLoop terms = leibnizDecSum terms := by
  intro terms
  induction terms with
  | zero => rfl
  | succ n ih => rw [leibnizLoop_succ, ih]; rfl

theorem foldl_colorStep_diverged (ps : List (Char × Char)) :
    ∀ res, ps.foldl colorStep (res, true) = (res ++ ps.map Prod.fst, true) := by
  induction ps with
  | nil => intro res; simp
  | cons p ps ih =>
    intro res
    rw [List.foldl_cons]
    have hstep : colorStep (res, true) p = (res ++ [p.1], true) := by
      simp [colorStep]
    rw [hstep, ih]
    simp

theorem foldl_colorStep_all_eq (ps : List (Char × Char)) (h : ∀ p ∈ ps, p.1 = p.2) :
    ∀ res, ps.foldl colorStep (res, false) = (res ++ ps.map Prod.fst, false) := by
  induction ps with
  | nil => intro res; simp
  | cons p ps ih =>
    intro res
    rw [List.foldl_cons]
    have hstep : colorStep (res, false) p = (res ++ [p.1], false) := by
      simp [colorStep, h p (by simp)]
    rw [hstep, ih (fun q hq => h q (by simp [hq]))]
    simp

theorem foldl_colorStep_clean (ps : List (Char × Char)) :
    ∀ res, ps.foldl colorStep (res, false) =
      if (ps.takeWhile (fun q => q.1 == q.2)).length = ps.length
      then (res ++ ps.map Prod.fst, false)
      else (res ++ (ps.map Prod.fst).take ((ps.takeWhile (fun q => q.1 == q.2)).length)
              ++ redMark ++ (ps.map Prod.fst).drop ((ps.takeWhile (fun q => q.1 == q.2)).length),
            true) := by
  induction ps with
  | nil => intro res; simp
  | cons p ps ih =>
    intro res
    by_cases hp : p.1 = p.2
    · have ht : (p :: ps).takeWhile (fun q => q.1 == q.2) =
          p :: ps.takeWhile (fun q => q.1 == q.2) := by
        simp [List.takeWhile_cons, hp]
      have hstep : colorStep (res, false) p = (res ++ [p.1], false) := by
        simp [colorStep, hp]
      rw [List.foldl_cons, hstep, ih, ht]
      by_cases hlen : (ps.takeWhile (fun q => q.1 == q.2)).length = ps.length
      · simp [hlen]
      · have hlen2 : ¬ ((ps.takeWhile (fun q => q.1 == q.2)).length + 1 = ps.length + 1) := by
          omega
        simp only [List.length_cons, List.map_cons, if_neg hlen, if_neg hlen2,
          List.take_succ_cons, List.drop_succ_cons]
        simp
    · have ht : (p :: ps).takeWhile (fun q => q.1 == q.2) = [] := by
        simp [List.takeWhile_cons, hp]
      have hstep : colorStep (res, false) p = (res ++ redMark ++ [p.1], true) := by
        simp [colorStep, hp]
      rw [List.foldl_cons, hstep, foldl_colorStep_diverged, ht]
      have hlen : ¬ ((0 : ℕ) = ps.length + 1) := by omega
      simp only [List.length_nil, List.length_cons, if_neg hlen, List.map_cons,
        List.take_zero, List.drop_zero]
      simp

theorem zip_self_fst_eq_snd : ∀ (l : List Char), ∀ p ∈ l.zip l, p.1 = p.2 := by
  intro l
  induction l with
  | nil => simp
  | cons a l ih =>
    intro p hp
    rw [List.zip_cons_cons] at hp
    rcases List.mem_cons.mp hp with h | h
    · rw [h]
    · exact ih p h

theorem digitChar_ne_esc (n : ℕ) : Nat.digitChar (n % 10) ≠ '\x1b' := by
  have h10 : n % 10 < 10 := Nat.mod_lt _ (by norm_num)
  have hall : ∀ d < 10, Nat.digitChar d ≠ '\x1b' := by decide
  exact hall _ h10

theorem esc_not_mem_natDigitsRevF : ∀ fuel n, '\x1b' ∉ natDigitsRevF fuel n := by
  intro fuel
  induction fuel with
  | zero => intro n; simp [natDigitsRevF]
  | succ fuel ih =>
    intro n
    simp only [natDigitsRevF]
    split
    · simp
    · intro hc
      rcases List.mem_cons.mp hc with h | h
      · exact digitChar_ne_esc n h.symm
      · exact ih _ h

theorem esc_not_mem_natToChars (n : ℕ) : '\x1b' ∉ natToChars n := by
  unfold natToChars
  split
  · decide
  · rw [List.mem_reverse]
    exact esc_not_mem_natDigitsRevF _ _

theorem esc_not_mem_natPadDigits : ∀ p n, '\x1b' ∉ natPadDigits p n := by
  intro p
  induction p with
  | zero => intro n; simp [natPadDigits]
  | succ p ih =>
    intro n
    simp only [natPadDigits]
    intro hc
    rcases List.mem_append.mp hc with h | h
    · exact ih _ h
    · exact digitChar_ne_esc n (List.mem_singleton.mp h).symm

theorem esc_not_mem_formatFixed (q : ℚ) (places : ℕ) : '\x1b' ∉ formatFixed q places := by
  intro hc
  unfold formatFixed at hc
  rcases List.mem_append.mp hc with h | h
  · rcases List.mem_append.mp h with h2 | h2
    · have hsign : '\x1b' ∉ (if q < 0 then (['-'] : List Char) else []) := by
        split <;> decide
      exact hsign h2
    · exact esc_not_mem_natToChars _ h2
  · have hfrac : '\x1b' ∉ (if places = 0 then ([] : List Char)
        else '.' :: natPadDigits places ((roundHalfEven (|q| * (10 : ℚ) ^ places)).toNat % 10 ^ places)) := by
      split
      · simp
      · intro hx
        rcases List.mem_cons.mp hx with h4 | h4
        · exact absurd h4 (by decide)
        · exact esc_not_mem_natPadDigits _ _ h4
    exact hfrac h

/-! ### Claim theorems -/

/-- C1: for every `terms ≥ 1`, calculate_pi_leibniz returns 4 times the
sum over `n = 0 .. terms-1` of the signed terms `(-1)^n / (2n+1)`,
accumulated in 50-significant-digit decimal arithmetic and converted to
the binary64 output type only at the end; in particular for `terms = 1`
it returns exactly 4.0. -/
theorem leibniz_decimal_sum_times_four (terms : ℕ) (h : 1 ≤ terms) :
    calculate_pi_leibniz terms = toFloat64 (decMul 50 (leibnizDecSum terms) 4) ∧
    (terms = 1 → calculate_pi_leibniz terms = 4) := by
  constructor
  · unfold calculate_pi_leibniz
    rw [leibnizLoop_eq_decSum]
  · intro h1
    subst h1
    decide

/-- Witness for C1 at `terms = 1`: the estimator value is exactly 4. -/
theorem leibniz_decimal_sum_times_four_witness :
    1 ≤ 1 ∧
      (calculate_pi_leibniz 1 = toFloat64 (decMul 50 (leibnizDecSum 1) 4) ∧
        (1 = 1 → calculate_pi_leibniz 1 = 4)) :=
  ⟨by decide, leibniz_decimal_sum_times_four 1 (by decide)⟩

/-- C2: for every stream and `iterations ≥ 1`, calculate_pi_monte_carlo
returns `4 × hits / iterations` where `hits` counts the drawn points with
Euclidean distance from the origin at most 1 (two draws per iteration);
the result lies in [0, 4].  The final equivalence ties the embedded test
`x² + y² ≤ 1` to the square-root form computed by the source. -/
theorem monte_carlo_formula_and_range (s : ℕ → ℚ) (iterations : ℕ) (h : 1 ≤ iterations) :
    calculate_pi_monte_carlo s iterations
        = some (4 * (mcHitsSpec s iterations : ℚ) / (iterations : ℚ)) ∧
    mcHitsSpec s iterations ≤ iterations ∧
    (0 : ℚ) ≤ 4 * (mcHitsSpec s iterations : ℚ) / (iterations : ℚ) ∧
    4 * (mcHitsSpec s iterations : ℚ) / (iterations : ℚ) ≤ 4 ∧
    (∀ x y : ℚ, Real.sqrt ((x*x + y*y : ℚ) : ℝ) ≤ 1 ↔ x*x + y*y ≤ 1) := by
  have hne : iterations ≠ 0 := by omega
  have hle : mcHitsSpec s iterations ≤ iterations := by
    rw [← mcHits_eq_spec]
    exact mcHits_le s iterations
  refine ⟨?_, hle, ?_, ?_, ?_⟩
  · simp only [calculate_pi_monte_carlo]
    rw [if_neg hne, mcHits_eq_spec]
  · positivity
  · have hpos : (0:ℚ) < (iterations : ℚ) := by exact_mod_cast Nat.pos_of_ne_zero hne
    rw [div_le_iff₀ hpos]
    have hcast : (mcHitsSpec s iterations : ℚ) ≤ (iterations : ℚ) := by exact_mod_cast hle
    nlinarith
  · intro x y
    have hnnq : (0:ℚ) ≤ x*x + y*y := add_nonneg (mul_self_nonneg x) (mul_self_nonneg y)
    have hnn : (0:ℝ) ≤ ((x*x + y*y : ℚ) : ℝ) := by exact_mod_cast hnnq
    constructor
    · intro hs
      have h2 := Real.sq_sqrt hnn
      have h3 := Real.sqrt_nonneg ((x*x + y*y : ℚ) : ℝ)
      have h4 : ((x*x + y*y : ℚ) : ℝ) ≤ 1 := by nlinarith
      exact_mod_cast h4
    · intro hq
      have h4 : ((x*x + y*y : ℚ) : ℝ) ≤ 1 := by exact_mod_cast hq
      calc Real.sqrt ((x*x + y*y : ℚ) : ℝ) ≤ Real.sqrt 1 := Real.sqrt_le_sqrt h4
        _ = 1 := Real.sqrt_one

/-- Witness for C2 on the all-zeros stream with a single iteration: the
drawn point (0,0) is a hit and the estimate is 4·1/1. -/
theorem monte_carlo_formula_and_range_witness :
    calculate_pi_monte_carlo zeroStream 1
        = some (4 * (mcHitsSpec zeroStream 1 : ℚ) / ((1 : ℕ) : ℚ)) ∧
    mcHitsSpec zeroStream 1 ≤ 1 ∧
    (0 : ℚ) ≤ 4 * (mcHitsSpec zeroStream 1 : ℚ) / ((1 : ℕ) : ℚ) ∧
    4 * (mcHitsSpec zeroStream 1 : ℚ) / ((1 : ℕ) : ℚ) ≤ 4 ∧
    (∀ x y : ℚ, Real.sqrt ((x*x + y*y : ℚ) : ℝ) ≤ 1 ↔ x*x + y*y ≤ 1) :=
  monte_carlo_formula_and_range zeroStream 1 (by decide)

/-- C3: for every stream, `drops ≥ 1`, `needleLength > 0` and
`lineDistance > 0`, calculate_pi_buffon_needle returns
`(2·needleLength·drops) / (lineDistance·crosses)` when the counted
crossings are positive, and exactly 0 when no crossing was counted. -/
theorem buffon_result_formula (s : ℕ → ℚ) (sinA : ℚ → ℚ) (piA : ℚ) (drops : ℕ)
    (L d : ℚ) (hdrops : 1 ≤ drops) (hL : 0 < L) (hd : 0 < d) :
    (0 < buffonCrosses s sinA piA drops L d →
      calculate_pi_buffon_needle s sinA piA drops L d
        = some ((2 * L * (drops : ℚ)) / (d * (buffonCrosses s sinA piA drops L d : ℚ)))) ∧
    (buffonCrosses s sinA piA drops L d = 0 →
      calculate_pi_buffon_needle s sinA piA drops L d = some 0) := by
  constructor
  · intro hc
    have hcq : (0:ℚ) < (buffonCrosses s sinA piA drops L d : ℚ) := by exact_mod_cast hc
    have hne : d * (buffonCrosses s sinA piA drops L d : ℚ) ≠ 0 :=
      ne_of_gt (mul_pos hd hcq)
    simp only [calculate_pi_buffon_needle]
    rw [if_pos hc, if_neg hne]
  · intro hc
    simp only [calculate_pi_buffon_needle]
    rw [hc]
    simp

/-- Witness for C3 with one drop of the all-zeros stream (centre offset 0
and orientation 0, which the source counts as a crossing): the hypotheses
hold and the first branch yields `2·1·1/(1·1)`. -/
theorem buffon_result_formula_witness :
    (0 < buffonCrosses zeroStream zeroSin 0 1 1 1 →
      calculate_pi_buffon_needle zeroStream zeroSin 0 1 1 1
        = some ((2 * 1 * ((1 : ℕ) : ℚ)) / (1 * (buffonCrosses zeroStream zeroSin 0 1 1 1 : ℚ)))) ∧
    (buffonCrosses zeroStream zeroSin 0 1 1 1 = 0 →
      calculate_pi_buffon_needle zeroStream zeroSin 0 1 1 1 = some 0) :=
  buffon_result_formula zeroStream zeroSin 0 1 1 1 (by decide) (by decide) (by decide)

/-- C4 counterexample: at centre offset `y = 0` and orientation
`θ = 0` (where sine is 0) with unit needle and unit line distance, the
projected endpoint offset is `y_end = 0`: the source counts this drop as
a crossing, but `y_end` does not fall outside the half-open interval
`[0, lineDistance/2)` — so the claimed rule `y_end < 0 ∨ y_end ≥
lineDistance/2` is false for the code. -/
theorem buffon_boundary_counterexample :
    needleCrosses zeroSin 1 1 0 0 = true ∧
    ¬ ((0 : ℚ) + (1/2) * zeroSin 0 < 0 ∨ (1 : ℚ)/2 ≤ 0 + (1/2) * zeroSin 0) := by
  decide

/-- C4 (amended): a drop is counted as a crossing if and only if its
projected endpoint offset satisfies `y_end ≤ 0` or
`y_end ≥ lineDistance/2` — the closed condition, in which the boundary
`y_end = 0` counts as a crossing; the loop's crossing count equals the
number of drop indices satisfying that rule. -/
theorem buffon_crossing_rule (s : ℕ → ℚ) (sinA : ℚ → ℚ) (piA : ℚ) (drops : ℕ) (L d : ℚ) :
    buffonCrosses s sinA piA drops L d = buffonCrossesSpec s sinA piA drops L d ∧
    (∀ y theta : ℚ, needleCrosses sinA L d y theta = true ↔
      (y + (L/2) * sinA theta ≤ 0 ∨ d/2 ≤ y + (L/2) * sinA theta)) :=
  ⟨buffonCrosses_eq_spec s sinA piA L d drops,
   fun y theta => needleCrosses_iff sinA L d y theta⟩

/-- C5 counterexample: formatting value 10 against reference 3 (renderings
of different lengths), the printable content of the output is not value's
rendering — Python's zip truncates the extra trailing character — and the
printable length differs from the rendering's length. -/
theorem format_truncation_counterexample :
    stripAnsi (format_pi_with_color 10 3) ≠ formatFixed 10 20 ∧
    (stripAnsi (format_pi_with_color 10 3)).length ≠ (formatFixed 10 20).length := by
  decide

/-- C5 (amended): whenever value's fixed-point rendering is no longer
than reference's (in particular whenever the two renderings have equal
length, as for any two values formatted by the program's summary table),
the formatter output is exactly value's rendering, either unmarked, or
split at the first mismatching character with the start-of-divergence
delimiter inserted there and the end-of-divergence delimiter appended
after the last character; the matching prefix and diverging suffix
reassemble exactly value's rendering, so the printable content has
exactly the rendering's length.  When value's rendering is strictly
longer than reference's, its trailing characters are dropped. -/
theorem format_printable_content (places : ℕ) (v r : ℚ)
    (h : (formatFixed v places).length ≤ (formatFixed r places).length) :
    format_pi_with_color_at places v r = formatFixed v places ∨
    (format_pi_with_color_at places v r
        = (formatFixed v places).take
            ((((formatFixed v places).zip (formatFixed r places)).takeWhile
                (fun q => q.1 == q.2)).length)
          ++ redMark
          ++ (formatFixed v places).drop
            ((((formatFixed v places).zip (formatFixed r places)).takeWhile
                (fun q => q.1 == q.2)).length)
          ++ resetMark ∧
      (formatFixed v places).take
          ((((formatFixed v places).zip (formatFixed r places)).takeWhile
              (fun q => q.1 == q.2)).length)
        ++ (formatFixed v places).drop
          ((((formatFixed v places).zip (formatFixed r places)).takeWhile
              (fun q => q.1 == q.2)).length)
        = formatFixed v places) := by
  have hmap : ((formatFixed v places).zip (formatFixed r places)).map Prod.fst
      = formatFixed v places := List.map_fst_zip _ _ h
  simp only [format_pi_with_color_at]
  rw [foldl_colorStep_clean]
  by_cases hc : (((formatFixed v places).zip (formatFixed r places)).takeWhile
      (fun q => q.1 == q.2)).length = ((formatFixed v places).zip (formatFixed r places)).length
  · rw [if_pos hc]
    left
    simp [hmap]
  · rw [if_neg hc]
    right
    constructor
    · simp [hmap, List.append_assoc]
    · exact List.take_append_drop _ _

/-- Witness for C5 (amended) at value 4, reference 3, one decimal place:
the renderings "4.0" and "3.0" have equal length, so the hypothesis
holds and the theorem applies. -/
theorem format_printable_content_witness :
    (formatFixed 4 1).length ≤ (formatFixed 3 1).length ∧
    (format_pi_with_color_at 1 4 3 = formatFixed 4 1 ∨
      (format_pi_with_color_at 1 4 3
          = (formatFixed 4 1).take
              ((((formatFixed 4 1).zip (formatFixed 3 1)).takeWhile
                  (fun q => q.1 == q.2)).length)
            ++ redMark
            ++ (formatFixed 4 1).drop
              ((((formatFixed 4 1).zip (formatFixed 3 1)).takeWhile
                  (fun q => q.1 == q.2)).length)
            ++ resetMark ∧
        (formatFixed 4 1).take
            ((((formatFixed 4 1).zip (formatFixed 3 1)).takeWhile
                (fun q => q.1 == q.2)).length)
          ++ (formatFixed 4 1).drop
            ((((formatFixed 4 1).zip (formatFixed 3 1)).takeWhile
                (fun q => q.1 == q.2)).length)
          = formatFixed 4 1)) :=
  ⟨by decide, format_printable_content 1 4 3 (by decide)⟩

/-- C6 counterexample: calculate_pi_leibniz with `terms = 0` does not
fail; it silently returns 0, contradicting the claimed explicit
rejection. -/
theorem leibniz_zero_returns_zero : calculate_pi_leibniz 0 = 0 := by
  decide

/-- C6 (amended): at a zero sample count, only calculate_pi_monte_carlo
fails (the division `4.0 * hits / iterations` raises ZeroDivisionError);
calculate_pi_leibniz returns 0.0 silently, and
calculate_pi_buffon_needle returns 0 through its zero-crossings
fallback. -/
theorem zero_sample_count_behaviour :
    (∀ s : ℕ → ℚ, calculate_pi_monte_carlo s 0 = none) ∧
    calculate_pi_leibniz 0 = 0 ∧
    (∀ (s : ℕ → ℚ) (sinA : ℚ → ℚ) (piA L d : ℚ),
      calculate_pi_buffon_needle s sinA piA 0 L d = some 0) :=
  ⟨fun _ => rfl, by decide, fun _ _ _ _ _ => rfl⟩

/-- C7 counterexample: starting from the Python default precision 28, the
process-wide decimal precision observable after a SeriesEstimator call is
not 28 — the call has mutated ambient global state. -/
theorem precision_leak_counterexample : (calculate_pi_leibniz_ctx 1 28).2 ≠ 28 := by
  decide

/-- C7 (amended): calculate_pi_leibniz overwrites the process-wide
decimal precision with 50 and leaves it at 50 after returning — the
setting leaks across runs whenever the inherited precision differed —
while the estimate itself does not depend on the inherited precision. -/
theorem precision_set_to_fifty (terms precIn : ℕ) :
    (calculate_pi_leibniz_ctx terms precIn).2 = 50 ∧
    (calculate_pi_leibniz_ctx terms precIn).1 = calculate_pi_leibniz terms :=
  ⟨rfl, rfl⟩

/-- C8: when value's and reference's fixed-point renderings coincide
character for character, format_pi_with_color returns exactly that
rendering with no divergence delimiter (no ESC character occurs in the
output). -/
theorem format_equal_renderings_no_marker (places : ℕ) (v r : ℚ)
    (h : formatFixed v places = formatFixed r places) :
    format_pi_with_color_at places v r = formatFixed v places ∧
    '\x1b' ∉ format_pi_with_color_at places v r := by
  have hres : format_pi_with_color_at places v r = formatFixed v places := by
    simp only [format_pi_with_color_at]
    rw [← h, foldl_colorStep_all_eq _ (zip_self_fst_eq_snd _),
      List.map_fst_zip _ _ (le_refl _)]
    simp
  refine ⟨hres, ?_⟩
  rw [hres]
  exact esc_not_mem_formatFixed v places

/-- Witness for C8 at value = reference = 3.14159 with 5 decimal places:
the output is the plain rendering, which is the string "3.14159". -/
theorem format_equal_renderings_no_marker_witness :
    (format_pi_with_color_at 5 (314159/100000) (314159/100000)
        = formatFixed (314159/100000) 5 ∧
      '\x1b' ∉ format_pi_with_color_at 5 (314159/100000) (314159/100000)) ∧
    formatFixed (314159/100000 : ℚ) 5 = ['3', '.', '1', '4', '1', '5', '9'] :=
  ⟨format_equal_renderings_no_marker 5 (314159/100000) (314159/100000) rfl, by decide⟩

/-- C9: runs supplied with streams that agree on every consumed draw and
with the same inputs return identical results for both stochastic
estimators — the output is a function of the parameters and the consumed
stream values only. -/
theorem estimators_reproducible (s₁ s₂ t₁ t₂ : ℕ → ℚ) (sinA : ℚ → ℚ) (piA : ℚ)
    (iterations drops : ℕ) (L d : ℚ)
    (hs : ∀ j, j < 2*iterations → s₁ j = s₂ j)
    (ht : ∀ j, j < 2*drops → t₁ j = t₂ j) :
    calculate_pi_monte_carlo s₁ iterations = calculate_pi_monte_carlo s₂ iterations ∧
    calculate_pi_buffon_needle t₁ sinA piA drops L d
      = calculate_pi_buffon_needle t₂ sinA piA drops L d := by
  constructor
  · simp only [calculate_pi_monte_carlo]
    rw [mcHits_congr s₁ s₂ iterations hs]
  · simp only [calculate_pi_buffon_needle]
    rw [buffonCrosses_congr t₁ t₂ sinA piA drops L d ht]

/-- Witness for C9: two runs on the shared all-zeros stream with one
sample each. -/
theorem estimators_reproducible_witness :
    calculate_pi_monte_carlo zeroStream 1 = calculate_pi_monte_carlo zeroStream 1 ∧
    calculate_pi_buffon_needle zeroStream zeroSin 0 1 1 1
      = calculate_pi_buffon_needle zeroStream zeroSin 0 1 1 1 :=
  estimators_reproducible zeroStream zeroStream zeroStream zeroStream zeroSin 0 1 1 1 1
    (fun _ _ => rfl) (fun _ _ => rfl)

/-- C10: calculate_pi_buffon_needle reads, for drop `i`, draw `2·i` as
the centre offset and then draw `2·i + 1` as the orientation; both the
crossing count and the returned estimate depend on the first `2 × drops`
stream values and on no others. -/
theorem buffon_stream_frame (t₁ t₂ : ℕ → ℚ) (sinA : ℚ → ℚ) (piA : ℚ)
    (drops : ℕ) (L d : ℚ) (ht : ∀ j, j < 2*drops → t₁ j = t₂ j) :
    buffonCrosses t₁ sinA piA drops L d = buffonCrosses t₂ sinA piA drops L d ∧
    calculate_pi_buffon_needle t₁ sinA piA drops L d
      = calculate_pi_buffon_needle t₂ sinA piA drops L d := by
  have hc := buffonCrosses_congr t₁ t₂ sinA piA drops L d ht
  refine ⟨hc, ?_⟩
  simp only [calculate_pi_buffon_needle]
  rw [hc]

/-- Witness for C10: a stream that differs from the all-zeros stream only
from index 2 onwards gives the same single-drop crossing count and
estimate. -/
theorem buffon_stream_frame_witness :
    buffonCrosses zeroStream zeroSin 0 1 1 1
        = buffonCrosses (fun j => if j < 2 then 0 else 99) zeroSin 0 1 1 1 ∧
    calculate_pi_buffon_needle zeroStream zeroSin 0 1 1 1
        = calculate_pi_buffon_needle (fun j => if j < 2 then 0 else 99) zeroSin 0 1 1 1 :=
  buffon_stream_frame zeroStream (fun j => if j < 2 then 0 else 99) zeroSin 0 1 1 1
    (fun j hj => by simp [zeroStream, hj])

end PiCalc
